import Mathlib

/-!
Verification of the fixed-capacity circular byte buffer in src/ring_buffer.go.
The Go code is shallowly embedded: the struct RingBuffer becomes a Lean
structure, each method becomes a pure function from a state (plus arguments)
to a result record holding the new state, the returned count or byte, and the
returned error, mirroring the Go control flow branch by branch.  Bytes are
modelled as natural numbers, since the buffer only stores and moves them; the
cursors and sizes are natural numbers, which agrees with the Go int values on
every state satisfying the structural invariant Inv below.  The mutex is not
modelled: each operation holds it for its whole duration, so the sequential
functions here are exactly the per-operation semantics.
-/

namespace Ringbuffer

/-- Values stored in the buffer; Go byte. -/
abbrev Byte := Nat

/-- Model of the Go struct RingBuffer: backing storage buf, its fixed size,
the read cursor r, the write cursor w, and the full flag isFull. -/
structure RingBuffer where
  buf : List Byte
  size : Nat
  r : Nat
  w : Nat
  isFull : Bool
  deriving DecidableEq

/-- The three error values ErrTooManyDataToWrite, ErrIsFull, ErrIsEmpty. -/
inductive Err where
  | tooMuchData
  | isFull
  | isEmpty
  deriving DecidableEq

/-- Result of Read: new state, the bytes copied out (in order), the count n,
and the error. -/
structure ReadResult where
  state : RingBuffer
  data : List Byte
  n : Nat
  err : Option Err
  deriving DecidableEq

/-- Result of Write and WriteString: new state, count n, error. -/
structure WriteResult where
  state : RingBuffer
  n : Nat
  err : Option Err
  deriving DecidableEq

/-- Result of ReadByte: new state, the byte, error. -/
structure ByteReadResult where
  state : RingBuffer
  b : Byte
  err : Option Err
  deriving DecidableEq

/-- Result of WriteByte: new state, error. -/
structure ByteWriteResult where
  state : RingBuffer
  err : Option Err
  deriving DecidableEq

/-- Model of the Go builtin copy(dst[start:], src): overwrite
min(len(src), len(dst)-start) positions of dst starting at start with the
first elements of src, leaving everything else unchanged. -/
def copyInto (dst : List Byte) (start : Nat) (src : List Byte) : List Byte :=
  let m := min src.length (dst.length - start)
  dst.take start ++ src.take m ++ dst.drop (start + m)

/-- Model of New: a zeroed buffer of the given size with both cursors at 0.
The Go code performs no validation of the size. -/
def New (size : Nat) : RingBuffer :=
  { buf := List.replicate size 0, size := size, r := 0, w := 0, isFull := false }

/-- Model of the Go method Read, reading into a destination of length plen.
The copied bytes are returned as the data field; the rest of the destination
is scratch space in Go and is not modelled. -/
def Read (s : RingBuffer) (plen : Nat) : ReadResult :=
  if plen = 0 then ⟨s, [], 0, none⟩
  else if s.w = s.r ∧ s.isFull = false then ⟨s, [], 0, some Err.isEmpty⟩
  else if s.r < s.w then
    let n := min (s.w - s.r) plen
    ⟨{ s with r := (s.r + n) % s.size }, (s.buf.drop s.r).take n, n, none⟩
  else
    let n := min (s.size - s.r + s.w) plen
    let out := if s.r + n ≤ s.size then (s.buf.drop s.r).take n
      else (s.buf.drop s.r).take (s.size - s.r) ++ s.buf.take (n - (s.size - s.r))
    ⟨{ s with r := (s.r + n) % s.size, isFull := false }, out, n, none⟩

/-- Model of the Go method ReadByte. -/
def ReadByte (s : RingBuffer) : ByteReadResult :=
  if s.w = s.r ∧ s.isFull = false then ⟨s, 0, some Err.isEmpty⟩
  else
    let b := s.buf.getD s.r 0
    let r1 := s.r + 1
    let r2 := if r1 = s.size then 0 else r1
    ⟨{ s with r := r2, isFull := false }, b, none⟩

/-- Model of the Go method Write. -/
def Write (s : RingBuffer) (p : List Byte) : WriteResult :=
  if p.length = 0 then ⟨s, 0, none⟩
  else if s.isFull then ⟨s, 0, some Err.isFull⟩
  else
    let avail := if s.r ≤ s.w then s.size - s.w + s.r else s.r - s.w
    let err : Option Err := if avail < p.length then some Err.tooMuchData else none
    let q := if avail < p.length then p.take avail else p
    let n := q.length
    let t1 : RingBuffer :=
      if s.r ≤ s.w then
        let c1 := s.size - s.w
        if n ≤ c1 then { s with buf := copyInto s.buf s.w q, w := s.w + n }
        else { s with buf := copyInto (copyInto s.buf s.w (q.take c1)) 0 (q.drop c1), w := n - c1 }
      else { s with buf := copyInto s.buf s.w q, w := s.w + n }
    let t2 : RingBuffer := if t1.w = t1.size then { t1 with w := 0 } else t1
    let t3 : RingBuffer := if t2.w = t2.r then { t2 with isFull := true } else t2
    ⟨t3, n, err⟩

/-- Model of the Go method WriteByte. -/
def WriteByte (s : RingBuffer) (c : Byte) : ByteWriteResult :=
  if s.w = s.r ∧ s.isFull = true then ⟨s, some Err.isFull⟩
  else
    let buf1 := s.buf.set s.w c
    let w1 := s.w + 1
    let w2 := if w1 = s.size then 0 else w1
    let full2 := if w2 = s.r then true else s.isFull
    ⟨{ s with buf := buf1, w := w2, isFull := full2 }, none⟩

/-- Model of the Go method Length: the number of unread bytes. -/
def Length (s : RingBuffer) : Nat :=
  if s.w = s.r then (if s.isFull then s.size else 0)
  else if s.r < s.w then s.w - s.r
  else s.size - s.r + s.w

/-- Model of the Go method Capacity. -/
def Capacity (s : RingBuffer) : Nat := s.size

/-- Model of the Go method Free: the number of bytes that can be written. -/
def Free (s : RingBuffer) : Nat :=
  if s.w = s.r then (if s.isFull then 0 else s.size)
  else if s.w < s.r then s.r - s.w
  else s.size - s.w + s.r

/-- Model of the Go method WriteString: the string is reinterpreted as its
byte sequence and handed to Write unchanged. -/
def WriteString (s : RingBuffer) (t : List Byte) : WriteResult := Write s t

/-- Model of the Go method Bytes: a copy of all unread bytes in FIFO order,
assembled with the same split copies as the Go code. -/
def Bytes (s : RingBuffer) : List Byte :=
  if s.w = s.r then
    (if s.isFull then s.buf.drop s.r ++ s.buf.take s.w else [])
  else if s.r < s.w then (s.buf.drop s.r).take (s.w - s.r)
  else
    let n := s.size - s.r + s.w
    if s.r + n < s.size then (s.buf.drop s.r).take n
    else (s.buf.drop s.r).take (s.size - s.r) ++ s.buf.take (n - (s.size - s.r))

/-- Model of the Go method IsFull. -/
def IsFull (s : RingBuffer) : Bool := s.isFull

/-- Model of the Go method IsEmpty. -/
def IsEmpty (s : RingBuffer) : Bool := !s.isFull && s.w == s.r

/-- Model of the Go method Reset. -/
def Reset (s : RingBuffer) : RingBuffer := { s with r := 0, w := 0, isFull := false }

/-- The abstract FIFO content of the buffer: the Length oldest unread bytes
listed from the read cursor onwards, indices taken modulo size. -/
def contents (s : RingBuffer) : List Byte :=
  (List.range (Length s)).map (fun i => s.buf.getD ((s.r + i) % s.size) 0)

/-- Structural invariant of every buffer reachable from a construction with
positive capacity: the storage has the declared size, both cursors are in
range, and the full flag is only set with coincident cursors. -/
def Inv (s : RingBuffer) : Prop :=
  0 < s.size ∧ s.buf.length = s.size ∧ s.r < s.size ∧ s.w < s.size ∧
    (s.isFull = true → s.r = s.w)

instance (s : RingBuffer) : Decidable (Inv s) := by
  unfold Inv
  infer_instance

/-- One public operation of the API, used to describe reachable states. -/
inductive Op where
  | opRead (plen : Nat)
  | opReadByte
  | opWrite (p : List Byte)
  | opWriteByte (c : Byte)
  | opWriteString (p : List Byte)
  | opReset
  | opQuery

/-- The state after one public operation; query operations (Length, Free,
Capacity, Bytes, IsFull, IsEmpty) do not change the state. -/
def applyOp (s : RingBuffer) : Op → RingBuffer
  | Op.opRead plen => (Read s plen).state
  | Op.opReadByte => (ReadByte s).state
  | Op.opWrite p => (Write s p).state
  | Op.opWriteByte c => (WriteByte s c).state
  | Op.opWriteString p => (WriteString s p).state
  | Op.opReset => Reset s
  | Op.opQuery => s

/-- States reachable from a fresh buffer of positive capacity by any sequence
of public operations. -/
inductive Reachable : RingBuffer → Prop where
  | base (n : Nat) (hn : 0 < n) : Reachable (New n)
  | step (s : RingBuffer) (op : Op) (hs : Reachable s) : Reachable (applyOp s op)

/-! Helper lemmas. -/

theorem getD_eq_getElem (l : List Byte) (i : Nat) (h : i < l.length) :
    l.getD i 0 = l[i] := by
  simp [List.getD_eq_getElem?_getD, List.getElem?_eq_getElem h]

theorem mod_two_cases (x n : Nat) (h : x < 2 * n) :
    x % n = if x < n then x else x - n := by
  split
  · exact Nat.mod_eq_of_lt (by assumption)
  · rename_i hx
    have h2 : n ≤ x := by omega
    rw [Nat.mod_eq_sub_mod h2, Nat.mod_eq_of_lt (by omega)]

theorem copyInto_length (dst : List Byte) (start : Nat) (src : List Byte) :
    (copyInto dst start src).length = dst.length := by
  simp [copyInto]
  omega

theorem copyInto_eq (dst : List Byte) (start : Nat) (src : List Byte)
    (h : start + src.length ≤ dst.length) :
    copyInto dst start src = dst.take start ++ src ++ dst.drop (start + src.length) := by
  have hm : min src.length (dst.length - start) = src.length := by omega
  simp [copyInto, hm]

/-- The cyclic view of the storage starting at cursor r, described as one or
two contiguous segments. -/
theorem cyclic_eq (buf : List Byte) (sz r k : Nat) (hlen : buf.length = sz)
    (hr : r < sz) (hk : k ≤ sz) :
    (List.range k).map (fun i => buf.getD ((r + i) % sz) 0) =
      if r + k ≤ sz then (buf.drop r).take k
      else buf.drop r ++ buf.take (r + k - sz) := by
  by_cases hb : r + k ≤ sz
  · rw [if_pos hb]
    apply List.ext_getElem
    · simp
      omega
    · intro i h1 h2
      have hik : i < k := by simpa using h1
      simp only [List.getElem_map, List.getElem_range, List.getElem_take, List.getElem_drop]
      rw [Nat.mod_eq_of_lt (by omega), getD_eq_getElem _ _ (by omega)]
  · rw [if_neg hb]
    apply List.ext_getElem
    · simp
      omega
    · intro i h1 h2
      have hik : i < k := by simpa using h1
      simp only [List.getElem_map, List.getElem_range]
      rw [mod_two_cases _ _ (by omega)]
      by_cases hi : i < sz - r
      · rw [if_pos (by omega), getD_eq_getElem _ _ (by omega),
          List.getElem_append_left (by simp; omega)]
        simp
      · rw [if_neg (by omega), getD_eq_getElem _ _ (by omega),
          List.getElem_append_right (by simp; omega)]
        simp
        congr 1
        omega

theorem contents_length (s : RingBuffer) : (contents s).length = Length s := by
  simp [contents]

/-- Contents of an empty buffer. -/
theorem contents_emptycase (s : RingBuffer) (hwr : s.w = s.r) (hf : s.isFull = false) :
    contents s = [] := by
  simp [contents, Length, hwr, hf]

/-- Contents when the unread region does not wrap. -/
theorem contents_lt (s : RingBuffer) (hInv : Inv s) (h : s.r < s.w) :
    contents s = (s.buf.drop s.r).take (s.w - s.r) := by
  obtain ⟨hsz, hlen, hr, hw, hfi⟩ := hInv
  have hL : Length s = s.w - s.r := by
    unfold Length
    rw [if_neg (by omega), if_pos h]
  unfold contents
  rw [hL, cyclic_eq s.buf s.size s.r (s.w - s.r) hlen hr (by omega),
    if_pos (by omega)]

/-- Contents when the unread region wraps past the end of storage. -/
theorem contents_gt (s : RingBuffer) (hInv : Inv s) (h : s.w < s.r) :
    contents s = s.buf.drop s.r ++ s.buf.take s.w := by
  obtain ⟨hsz, hlen, hr, hw, hfi⟩ := hInv
  have hL : Length s = s.size - s.r + s.w := by
    unfold Length
    rw [if_neg (by omega), if_neg (by omega)]
  unfold contents
  rw [hL, cyclic_eq s.buf s.size s.r (s.size - s.r + s.w) hlen hr (by omega)]
  by_cases hw0 : s.w = 0
  · rw [if_pos (by omega)]
    rw [hw0, List.take_zero, List.append_nil]
    rw [show s.size - s.r + 0 = (s.buf.drop s.r).length by simp [hlen]]
    exact List.take_length _
  · rw [if_neg (by omega), show s.r + (s.size - s.r + s.w) - s.size = s.w by omega]

/-- Contents of a completely full buffer. -/
theorem contents_fullcase (s : RingBuffer) (hInv : Inv s) (hwr : s.w = s.r)
    (hf : s.isFull = true) :
    contents s = s.buf.drop s.r ++ s.buf.take s.w := by
  obtain ⟨hsz, hlen, hr, hw, hfi⟩ := hInv
  have hL : Length s = s.size := by
    unfold Length
    rw [if_pos hwr, if_pos hf]
  unfold contents
  rw [hL, cyclic_eq s.buf s.size s.r s.size hlen hr (by omega)]
  have hw0 := hwr
  by_cases hr0 : s.r = 0
  · rw [if_pos (by omega), hr0, List.drop_zero, show s.w = 0 by omega,
      List.take_zero, List.append_nil, show s.size = s.buf.length from hlen.symm]
    exact List.take_length _
  · rw [if_neg (by omega), show s.r + s.size - s.size = s.w by omega]

/-- The number of unread bytes plus the free space is the capacity, on every
state satisfying the structural invariant. -/
theorem Length_add_Free (s : RingBuffer) (hInv : Inv s) :
    Length s + Free s = s.size := by
  obtain ⟨hsz, hlen, hr, hw, hfi⟩ := hInv
  unfold Length Free
  split_ifs <;> omega

theorem Free_le_size (s : RingBuffer) (hInv : Inv s) : Free s ≤ s.size := by
  obtain ⟨hsz, hlen, hr, hw, hfi⟩ := hInv
  unfold Free
  split_ifs <;> omega

theorem Length_eq_zero_iff (s : RingBuffer) (hInv : Inv s) :
    Length s = 0 ↔ (s.w = s.r ∧ s.isFull = false) := by
  obtain ⟨hsz, hlen, hr, hw, hfi⟩ := hInv
  cases hb : s.isFull with
  | false =>
    unfold Length
    simp only [hb]
    simp
    split_ifs with h1 <;> omega
  | true =>
    have hrw := hfi hb
    unfold Length
    simp only [hb]
    simp
    rw [if_pos hrw.symm]
    omega

theorem Free_eq_zero_iff (s : RingBuffer) (hInv : Inv s) :
    Free s = 0 ↔ s.isFull = true := by
  obtain ⟨hsz, hlen, hr, hw, hfi⟩ := hInv
  cases hb : s.isFull with
  | false =>
    unfold Free
    simp only [hb]
    simp
    split_ifs with h1 <;> omega
  | true =>
    have hrw := hfi hb
    unfold Free
    simp only [hb]
    simp
    intro h1
    exact absurd hrw.symm h1


theorem Write_spec (s : RingBuffer) (p : List Byte) (hInv : Inv s) (hbf : s.isFull = false)
    (hp : p.length ≠ 0) :
    (Write s p).n = min p.length (Free s) ∧
    (Write s p).err = (if Free s < p.length then some Err.tooMuchData else none) ∧
    (Write s p).state.size = s.size ∧
    (Write s p).state.r = s.r ∧
    Inv (Write s p).state ∧
    contents (Write s p).state = contents s ++ p.take (min p.length (Free s)) := by
  obtain ⟨hsz, hlen, hr, hw, hfi⟩ := hInv
  have hInv2 : Inv s := ⟨hsz, hlen, hr, hw, hfi⟩
  have hbf2 : ¬ (s.isFull = true) := by rw [hbf]; simp
  have hApos : 0 < Free s := by
    rcases Nat.eq_zero_or_pos (Free s) with h0 | h0
    · exact absurd ((Free_eq_zero_iff s hInv2).mp h0) hbf2
    · exact h0
  have hAsz : Free s ≤ s.size := Free_le_size s hInv2
  set k := min p.length (Free s) with hkdef
  have hkpos : 0 < k := by omega
  have hkA : k ≤ Free s := by omega
  have hkp : k ≤ p.length := by omega
  have havail : (if s.r ≤ s.w then s.size - s.w + s.r else s.r - s.w) = Free s := by
    unfold Free
    split_ifs <;> omega
  have hq : (if Free s < p.length then p.take (Free s) else p) = p.take k := by
    split_ifs with h
    · congr 1
      omega
    · rw [show k = p.length by omega, List.take_length]
  have hqlen : (p.take k).length = k := by
    rw [List.length_take]
    omega
  unfold Write
  rw [if_neg hp, if_neg hbf2]
  dsimp only
  rw [havail, hq, hqlen, hbf]
  refine ⟨rfl, rfl, ?_⟩
  by_cases hc : s.r ≤ s.w
  · have hA : Free s = s.size - s.w + s.r := by rw [← havail, if_pos hc]
    rw [if_pos hc]
    by_cases hc2 : k ≤ s.size - s.w
    · rw [if_pos hc2]
      dsimp only
      have hbufA : copyInto s.buf s.w (List.take k p) =
          s.buf.take s.w ++ List.take k p ++ s.buf.drop (s.w + k) := by
        rw [copyInto_eq _ _ _ (by rw [hqlen, hlen]; omega), hqlen]
      by_cases hc3 : s.w + k = s.size
      · rw [if_pos hc3]
        dsimp only
        have hdend : s.buf.drop (s.w + k) = [] :=
          List.drop_of_length_le (by omega)
        have hbufA2 : copyInto s.buf s.w (List.take k p) =
            s.buf.take s.w ++ List.take k p := by
          rw [hbufA, hdend, List.append_nil]
        by_cases hc4 : (0 : Nat) = s.r
        · rw [if_pos hc4]
          dsimp only
          have hInv3 : Inv ⟨copyInto s.buf s.w (List.take k p), s.size, s.r, 0, true⟩ :=
            ⟨hsz, by rw [copyInto_length]; exact hlen, hr, hsz, fun _ => hc4.symm⟩
          refine ⟨rfl, rfl, hInv3, ?_⟩
          rw [contents_fullcase _ hInv3 hc4 rfl]
          dsimp only
          rw [hbufA2, List.take_zero, List.append_nil, ← hc4, List.drop_zero]
          congr 1
          rcases Nat.eq_or_lt_of_le hc with he | hlt
          · rw [contents_emptycase s he.symm hbf, show s.w = 0 by omega, List.take_zero]
          · rw [contents_lt s hInv2 hlt, ← hc4, List.drop_zero, Nat.sub_zero]
        · rw [if_neg hc4]
          dsimp only
          have hInv3 : Inv ⟨copyInto s.buf s.w (List.take k p), s.size, s.r, 0, false⟩ :=
            ⟨hsz, by rw [copyInto_length]; exact hlen, hr, hsz, fun h => Bool.noConfusion h⟩
          refine ⟨rfl, rfl, hInv3, ?_⟩
          rw [contents_gt _ hInv3 (show (0:Nat) < s.r by omega)]
          dsimp only
          rw [hbufA2, List.take_zero, List.append_nil]
          rw [List.drop_append_eq_append_drop,
            show s.r - (s.buf.take s.w).length = 0 by rw [List.length_take]; omega,
            List.drop_zero]
          congr 1
          rw [List.drop_take]
          rcases Nat.eq_or_lt_of_le hc with he | hlt
          · rw [contents_emptycase s he.symm hbf, show s.w - s.r = 0 by omega, List.take_zero]
          · rw [contents_lt s hInv2 hlt]
      · rw [if_neg hc3]
        dsimp only
        rw [if_neg (show ¬ (s.w + k = s.r) by omega)]
        dsimp only
        have hInv3 : Inv ⟨copyInto s.buf s.w (List.take k p), s.size, s.r, s.w + k, false⟩ :=
          ⟨hsz, by rw [copyInto_length]; exact hlen, hr, by dsimp only; omega, fun h => Bool.noConfusion h⟩
        refine ⟨rfl, rfl, hInv3, ?_⟩
        rw [contents_lt _ hInv3 (show s.r < s.w + k by omega)]
        dsimp only
        rw [hbufA]
        rw [List.drop_append_eq_append_drop,
          show s.r - (s.buf.take s.w ++ List.take k p).length = 0 by
            rw [List.length_append, List.length_take, hqlen]; omega,
          List.drop_zero,
          List.take_left' (by
            rw [List.length_drop, List.length_append, List.length_take, hqlen]; omega)]
        rw [List.drop_append_eq_append_drop,
          show s.r - (s.buf.take s.w).length = 0 by rw [List.length_take]; omega,
          List.drop_zero]
        congr 1
        rw [List.drop_take]
        rcases Nat.eq_or_lt_of_le hc with he | hlt
        · rw [contents_emptycase s he.symm hbf, show s.w - s.r = 0 by omega, List.take_zero]
        · rw [contents_lt s hInv2 hlt]
    · rw [if_neg hc2]
      dsimp only
      have hlen_tp : (List.take (s.size - s.w) p).length = s.size - s.w := by
        rw [List.length_take]; omega
      have hinner : copyInto s.buf s.w (List.take (s.size - s.w) (List.take k p)) =
          s.buf.take s.w ++ List.take (s.size - s.w) p := by
        rw [List.take_take, show min (s.size - s.w) k = s.size - s.w by omega]
        rw [copyInto_eq _ _ _ (by rw [hlen_tp, hlen]; omega), hlen_tp,
          show s.w + (s.size - s.w) = s.size by omega,
          List.drop_of_length_le (le_of_eq hlen), List.append_nil]
      have hlen_inner : (s.buf.take s.w ++ List.take (s.size - s.w) p).length = s.size := by
        rw [List.length_append, List.length_take, hlen_tp, hlen]; omega
      have hXlen : (List.drop (s.size - s.w) (List.take k p)).length = k - (s.size - s.w) := by
        rw [List.length_drop, hqlen]
      have houter : copyInto (s.buf.take s.w ++ List.take (s.size - s.w) p) 0
            (List.drop (s.size - s.w) (List.take k p)) =
          List.drop (s.size - s.w) (List.take k p) ++
            (s.buf.take s.w ++ List.take (s.size - s.w) p).drop (k - (s.size - s.w)) := by
        rw [copyInto_eq _ _ _ (by rw [hXlen, hlen_inner]; omega), List.take_zero,
          List.nil_append, hXlen, Nat.zero_add]
      have htmp : List.take (s.size - s.w) p ++ List.drop (s.size - s.w) (List.take k p) =
          List.take k p := by
        rw [show List.take (s.size - s.w) p = List.take (s.size - s.w) (List.take k p) by
          rw [List.take_take, Nat.min_eq_left (by omega)], List.take_append_drop]
      rw [if_neg (show ¬ (k - (s.size - s.w) = s.size) by omega)]
      dsimp only
      by_cases hc4 : k - (s.size - s.w) = s.r
      · rw [if_pos hc4]
        dsimp only
        have hInv3 : Inv ⟨copyInto (copyInto s.buf s.w (List.take (s.size - s.w) (List.take k p))) 0 (List.drop (s.size - s.w) (List.take k p)), s.size, s.r, k - (s.size - s.w), true⟩ :=
          ⟨hsz, by rw [copyInto_length, copyInto_length]; exact hlen, hr, by dsimp only; omega,
            fun _ => hc4.symm⟩
        refine ⟨rfl, rfl, hInv3, ?_⟩
        rw [contents_fullcase _ hInv3 hc4 rfl]
        dsimp only
        rw [hinner, houter, ← hc4, List.drop_left' hXlen, List.take_left' hXlen]
        rw [List.drop_append_eq_append_drop,
          show k - (s.size - s.w) - (s.buf.take s.w).length = 0 by
            rw [List.length_take]; omega,
          List.drop_zero, List.append_assoc, htmp]
        congr 1
        rw [List.drop_take]
        rcases Nat.eq_or_lt_of_le hc with he | hlt
        · rw [contents_emptycase s he.symm hbf,
            show s.w - (k - (s.size - s.w)) = 0 by omega, List.take_zero]
        · rw [contents_lt s hInv2 hlt, hc4]
      · rw [if_neg hc4]
        dsimp only
        have hInv3 : Inv ⟨copyInto (copyInto s.buf s.w (List.take (s.size - s.w) (List.take k p))) 0 (List.drop (s.size - s.w) (List.take k p)), s.size, s.r, k - (s.size - s.w), false⟩ :=
          ⟨hsz, by rw [copyInto_length, copyInto_length]; exact hlen, hr, by dsimp only; omega,
            fun h => Bool.noConfusion h⟩
        refine ⟨rfl, rfl, hInv3, ?_⟩
        rw [contents_gt _ hInv3 (show k - (s.size - s.w) < s.r by omega)]
        dsimp only
        rw [hinner, houter, List.take_left' hXlen]
        rw [List.drop_append_eq_append_drop,
          List.drop_of_length_le (by rw [hXlen]; omega), List.nil_append,
          hXlen, List.drop_drop,
          show k - (s.size - s.w) + (s.r - (k - (s.size - s.w))) = s.r by omega]
        rw [List.drop_append_eq_append_drop,
          show s.r - (s.buf.take s.w).length = 0 by rw [List.length_take]; omega,
          List.drop_zero, List.append_assoc, htmp]
        congr 1
        rw [List.drop_take]
        rcases Nat.eq_or_lt_of_le hc with he | hlt
        · rw [contents_emptycase s he.symm hbf, show s.w - s.r = 0 by omega, List.take_zero]
        · rw [contents_lt s hInv2 hlt]
  · have hA : Free s = s.r - s.w := by rw [← havail, if_neg hc]
    rw [if_neg hc]
    dsimp only
    have hbufA : copyInto s.buf s.w (List.take k p) =
        s.buf.take s.w ++ List.take k p ++ s.buf.drop (s.w + k) := by
      rw [copyInto_eq _ _ _ (by rw [hqlen, hlen]; omega), hqlen]
    rw [if_neg (show ¬ (s.w + k = s.size) by omega)]
    dsimp only
    have hdropr : (s.buf.take s.w ++ List.take k p ++ s.buf.drop (s.w + k)).drop s.r =
        s.buf.drop s.r := by
      rw [List.drop_append_eq_append_drop,
        List.drop_of_length_le (by rw [List.length_append, List.length_take, hqlen]; omega),
        List.nil_append, List.drop_drop]
      congr 1
      rw [List.length_append, List.length_take, hqlen]
      omega
    have htake : (s.buf.take s.w ++ List.take k p ++ s.buf.drop (s.w + k)).take (s.w + k) =
        s.buf.take s.w ++ List.take k p := by
      rw [List.take_left' (by rw [List.length_append, List.length_take, hqlen]; omega)]
    by_cases hc3 : s.w + k = s.r
    · rw [if_pos hc3]
      dsimp only
      have hInv3 : Inv ⟨copyInto s.buf s.w (List.take k p), s.size, s.r, s.w + k, true⟩ :=
        ⟨hsz, by rw [copyInto_length]; exact hlen, hr, by dsimp only; omega, fun _ => hc3.symm⟩
      refine ⟨rfl, rfl, hInv3, ?_⟩
      rw [contents_fullcase _ hInv3 hc3 rfl]
      dsimp only
      rw [hbufA, hdropr, htake, contents_gt s hInv2 (by omega), List.append_assoc]
    · rw [if_neg hc3]
      dsimp only
      have hInv3 : Inv ⟨copyInto s.buf s.w (List.take k p), s.size, s.r, s.w + k, false⟩ :=
        ⟨hsz, by rw [copyInto_length]; exact hlen, hr, by dsimp only; omega, fun h => Bool.noConfusion h⟩
      refine ⟨rfl, rfl, hInv3, ?_⟩
      rw [contents_gt _ hInv3 (show s.w + k < s.r by omega)]
      dsimp only
      rw [hbufA, hdropr, htake, contents_gt s hInv2 (by omega), List.append_assoc]


theorem Read_spec (s : RingBuffer) (plen : Nat) (hInv : Inv s) (hne : Length s ≠ 0)
    (hp : plen ≠ 0) :
    (Read s plen).n = min (Length s) plen ∧
    (Read s plen).err = none ∧
    (Read s plen).data = (contents s).take (min (Length s) plen) ∧
    (Read s plen).state.r = (s.r + min (Length s) plen) % s.size ∧
    (Read s plen).state.w = s.w ∧
    (Read s plen).state.size = s.size ∧
    (Read s plen).state.buf = s.buf := by
  obtain ⟨hsz, hlen, hr, hw, hfi⟩ := hInv
  have hInv2 : Inv s := ⟨hsz, hlen, hr, hw, hfi⟩
  have hnonempty : ¬ (s.w = s.r ∧ s.isFull = false) := by
    intro hcon
    exact hne ((Length_eq_zero_iff s hInv2).mpr hcon)
  unfold Read
  rw [if_neg hp, if_neg hnonempty]
  by_cases hc : s.r < s.w
  · rw [if_pos hc]
    dsimp only
    have hL : Length s = s.w - s.r := by
      unfold Length
      rw [if_neg (by omega), if_pos hc]
    rw [hL]
    refine ⟨rfl, rfl, ?_, rfl, rfl, rfl, rfl⟩
    rw [contents_lt s hInv2 hc, List.take_take,
      show min (min (s.w - s.r) plen) (s.w - s.r) = min (s.w - s.r) plen by omega]
  · rw [if_neg hc]
    dsimp only
    have hcont : contents s = s.buf.drop s.r ++ s.buf.take s.w := by
      rcases Nat.lt_or_ge s.w s.r with h1 | h1
      · exact contents_gt s hInv2 h1
      · have hwr : s.w = s.r := by omega
        have hfull : s.isFull = true := by
          cases hb2 : s.isFull
          · exact absurd ⟨hwr, hb2⟩ hnonempty
          · rfl
        exact contents_fullcase s hInv2 hwr hfull
    have hL : Length s = s.size - s.r + s.w := by
      unfold Length
      rcases Nat.lt_or_ge s.w s.r with h1 | h1
      · rw [if_neg (by omega), if_neg (by omega)]
      · have hwr : s.w = s.r := by omega
        have hfull : s.isFull = true := by
          cases hb2 : s.isFull
          · exact absurd ⟨hwr, hb2⟩ hnonempty
          · rfl
        rw [if_pos hwr, if_pos hfull]
        omega
    rw [hL]
    refine ⟨rfl, rfl, ?_, rfl, rfl, rfl, rfl⟩
    have hddrop : (s.buf.drop s.r).length = s.size - s.r := by
      rw [List.length_drop, hlen]
    by_cases hb : s.r + min (s.size - s.r + s.w) plen ≤ s.size
    · rw [if_pos hb, hcont, List.take_append_eq_append_take, List.take_take, hddrop,
        show min (min (s.size - s.r + s.w) plen - (s.size - s.r)) s.w = 0 by omega,
        List.take_zero, List.append_nil]
    · rw [if_neg hb]
      have h2 : (s.buf.drop s.r).take (min (s.size - s.r + s.w) plen) = s.buf.drop s.r := by
        apply List.take_of_length_le
        rw [hddrop]
        omega
      have h3 : (s.buf.drop s.r).take (s.size - s.r) = s.buf.drop s.r := by
        apply List.take_of_length_le
        rw [hddrop]
      rw [hcont, List.take_append_eq_append_take, h2, h3, List.take_take, hddrop,
        show min (min (s.size - s.r + s.w) plen - (s.size - s.r)) s.w =
          min (s.size - s.r + s.w) plen - (s.size - s.r) by omega]


theorem Inv_New (n : Nat) (hn : 0 < n) : Inv (New n) :=
  ⟨hn, by simp [New], hn, hn, fun h => Bool.noConfusion h⟩

theorem Inv_Read (s : RingBuffer) (hInv : Inv s) (plen : Nat) : Inv (Read s plen).state := by
  obtain ⟨hsz, hlen, hr, hw, hfi⟩ := hInv
  unfold Read
  split_ifs with h1 h2 h3
  · exact ⟨hsz, hlen, hr, hw, hfi⟩
  · exact ⟨hsz, hlen, hr, hw, hfi⟩
  · exact ⟨hsz, hlen, Nat.mod_lt _ hsz, hw, fun h => absurd (hfi h) (by omega)⟩
  · exact ⟨hsz, hlen, Nat.mod_lt _ hsz, hw, fun h => Bool.noConfusion h⟩

theorem Inv_ReadByte (s : RingBuffer) (hInv : Inv s) : Inv (ReadByte s).state := by
  obtain ⟨hsz, hlen, hr, hw, hfi⟩ := hInv
  unfold ReadByte
  dsimp only
  split_ifs with h1 h2
  · exact ⟨hsz, hlen, hr, hw, hfi⟩
  · exact ⟨hsz, hlen, hsz, hw, fun h => Bool.noConfusion h⟩
  · exact ⟨hsz, hlen, by dsimp only; omega, hw, fun h => Bool.noConfusion h⟩

theorem Inv_Write (s : RingBuffer) (hInv : Inv s) (p : List Byte) : Inv (Write s p).state := by
  by_cases hp : p.length = 0
  · unfold Write
    rw [if_pos hp]
    exact hInv
  · cases hbf : s.isFull
    · exact (Write_spec s p hInv hbf hp).2.2.2.2.1
    · unfold Write
      rw [if_neg hp, if_pos hbf]
      exact hInv

theorem Inv_WriteByte (s : RingBuffer) (hInv : Inv s) (c : Byte) :
    Inv (WriteByte s c).state := by
  obtain ⟨hsz, hlen, hr, hw, hfi⟩ := hInv
  unfold WriteByte
  dsimp only
  split_ifs with h1 h2 h3 h4
  · exact ⟨hsz, hlen, hr, hw, hfi⟩
  · exact ⟨hsz, by rw [List.length_set]; exact hlen, hr, hsz, fun _ => h3.symm⟩
  · exact ⟨hsz, by rw [List.length_set]; exact hlen, hr, hsz,
      fun h => absurd ⟨(hfi h).symm, h⟩ h1⟩
  · exact ⟨hsz, by rw [List.length_set]; exact hlen, hr, by dsimp only; omega, fun _ => h4.symm⟩
  · exact ⟨hsz, by rw [List.length_set]; exact hlen, hr, by dsimp only; omega,
      fun h => absurd ⟨(hfi h).symm, h⟩ h1⟩

theorem Inv_Reset (s : RingBuffer) (hInv : Inv s) : Inv (Reset s) := by
  obtain ⟨hsz, hlen, hr, hw, hfi⟩ := hInv
  exact ⟨hsz, hlen, hsz, hsz, fun h => Bool.noConfusion h⟩

theorem Inv_applyOp (s : RingBuffer) (hInv : Inv s) (op : Op) : Inv (applyOp s op) := by
  cases op with
  | opRead plen => exact Inv_Read s hInv plen
  | opReadByte => exact Inv_ReadByte s hInv
  | opWrite p => exact Inv_Write s hInv p
  | opWriteByte c => exact Inv_WriteByte s hInv c
  | opWriteString p => exact Inv_Write s hInv p
  | opReset => exact Inv_Reset s hInv
  | opQuery => exact hInv

theorem Reachable_Inv (s : RingBuffer) (hs : Reachable s) : Inv s := by
  induction hs with
  | base n hn => exact Inv_New n hn
  | step t op ht ih => exact Inv_applyOp t ih op


/-! Claim theorems. -/

/-- Claim C9: for every valid buffer state, Bytes returns exactly the unread
bytes in FIFO order, correctly assembled across a wrap, and returns the empty
list on an empty buffer; Bytes is a pure function of the state, so it never
fails and cannot mutate the buffer. -/
theorem c9_bytes_peek (s : RingBuffer) (hInv : Inv s) :
    Bytes s = contents s ∧ (IsEmpty s = true → Bytes s = []) := by
  obtain ⟨hsz, hlen, hr, hw, hfi⟩ := hInv
  have hInv2 : Inv s := ⟨hsz, hlen, hr, hw, hfi⟩
  constructor
  · unfold Bytes
    dsimp only
    split_ifs with h1 h2 h3 h4
    · exact (contents_fullcase s hInv2 h1 h2).symm
    · refine (contents_emptycase s h1 ?_).symm
      cases hb : s.isFull
      · rfl
      · exact absurd hb h2
    · exact (contents_lt s hInv2 h3).symm
    · exact absurd h4 (by omega)
    · rw [show (s.buf.drop s.r).take (s.size - s.r) = s.buf.drop s.r by
          apply List.take_of_length_le
          rw [List.length_drop, hlen],
        show s.size - s.r + s.w - (s.size - s.r) = s.w by omega,
        contents_gt s hInv2 (by omega)]
  · intro h
    unfold IsEmpty at h
    simp only [Bool.and_eq_true, Bool.not_eq_true', beq_iff_eq] at h
    unfold Bytes
    rw [if_pos h.2, if_neg (by rw [h.1]; simp)]

theorem c9_bytes_peek_witness :
    Inv ⟨[1,2,3,4], 4, 3, 1, false⟩ ∧
    Bytes ⟨[1,2,3,4], 4, 3, 1, false⟩ = contents ⟨[1,2,3,4], 4, 3, 1, false⟩ :=
  ⟨by decide, (c9_bytes_peek ⟨[1,2,3,4], 4, 3, 1, false⟩ (by decide)).1⟩

/-- Claim C7: after every public operation on a reachable buffer the cursors
stay inside the storage range and Length plus Free equals Capacity. -/
theorem c7_invariant_after_ops (s : RingBuffer) (hs : Reachable s) (op : Op) :
    (applyOp s op).r < (applyOp s op).size ∧ (applyOp s op).w < (applyOp s op).size ∧
    Length (applyOp s op) + Free (applyOp s op) = Capacity (applyOp s op) := by
  have hInv : Inv (applyOp s op) := Inv_applyOp s (Reachable_Inv s hs) op
  obtain ⟨hsz, hlen, hr, hw, hfi⟩ := hInv
  exact ⟨hr, hw, Length_add_Free _ ⟨hsz, hlen, hr, hw, hfi⟩⟩

theorem c7_invariant_after_ops_witness :
    (applyOp (New 2) Op.opReset).r < (applyOp (New 2) Op.opReset).size ∧
    (applyOp (New 2) Op.opReset).w < (applyOp (New 2) Op.opReset).size ∧
    Length (applyOp (New 2) Op.opReset) + Free (applyOp (New 2) Op.opReset) =
      Capacity (applyOp (New 2) Op.opReset) :=
  c7_invariant_after_ops (New 2) (Reachable.base 2 (by decide)) Op.opReset

/-- Claim C10: in every reachable state the full flag implies coincident
cursors, which makes the WriteByte guard agree with the Write guard. -/
theorem c10_full_implies_coincident (s : RingBuffer) (hs : Reachable s)
    (hf : s.isFull = true) : s.r = s.w :=
  (Reachable_Inv s hs).2.2.2.2 hf

theorem c10_full_implies_coincident_witness :
    (applyOp (New 1) (Op.opWriteByte 7)).isFull = true ∧
    (applyOp (New 1) (Op.opWriteByte 7)).r = (applyOp (New 1) (Op.opWriteByte 7)).w :=
  ⟨by decide, c10_full_implies_coincident _
    (Reachable.step (New 1) (Op.opWriteByte 7) (Reachable.base 1 (by decide))) (by decide)⟩

/-- Claim C1: writing k bytes, 0 < k <= capacity, into any empty valid buffer
(wherever its coincident cursors sit) and reading k bytes returns exactly the
written sequence. -/
theorem c1_round_trip (s : RingBuffer) (p : List Byte) (hInv : Inv s) (hwr : s.w = s.r)
    (hbf : s.isFull = false) (hk1 : p.length ≠ 0) (hk2 : p.length ≤ s.size) :
    (Read (Write s p).state p.length).data = p ∧
    (Read (Write s p).state p.length).n = p.length := by
  have hfree : Free s = s.size := by
    unfold Free
    rw [if_pos hwr, hbf]
    simp
  have hmin : min p.length (Free s) = p.length := by
    rw [hfree]
    omega
  obtain ⟨hn, herr, hsize, hrr, hInv3, hcont⟩ := Write_spec s p hInv hbf hk1
  rw [hmin, contents_emptycase s hwr hbf, List.nil_append, List.take_length] at hcont
  have hlen2 : Length (Write s p).state = p.length := by
    rw [← contents_length, hcont]
  obtain ⟨hn2, herr2, hdata2, _, _, _, _⟩ :=
    Read_spec (Write s p).state p.length hInv3 (by rw [hlen2]; exact hk1) hk1
  constructor
  · rw [hdata2, hcont, hlen2, Nat.min_self, List.take_length]
  · rw [hn2, hlen2, Nat.min_self]

theorem c1_round_trip_witness :
    Inv ⟨[9,9,9,9], 4, 2, 2, false⟩ ∧
    (Read (Write ⟨[9,9,9,9], 4, 2, 2, false⟩ [5,6,7]).state 3).data = [5,6,7] :=
  ⟨by decide, (c1_round_trip ⟨[9,9,9,9], 4, 2, 2, false⟩ [5,6,7]
    (by decide) rfl rfl (by decide) (by decide)).1⟩

/-- Claim C2 as stated is false: after writing 3 bytes into a fresh capacity 4
buffer and reading 2 of them, only 1 byte remains buffered, so free space is 3
and the second write of 3 bytes is not truncated: it returns count 3 with no
error, not count 2 with TooMuchData. -/
theorem c2_wrap_counterexample :
    ¬ ((Write (Read (Write (New 4) [1,2,3]).state 2).state [4,5,6]).n = 2 ∧
       (Write (Read (Write (New 4) [1,2,3]).state 2).state [4,5,6]).err =
         some Err.tooMuchData) := by
  decide

/-- Claim C2 amended: capacity 4, write 3 bytes, read 2 bytes; free space is
then 3 (1 byte remains buffered), the second write of 3 bytes fully succeeds
with count 3 and no error, and Bytes returns the 1 retained original byte
followed by the 3 newly accepted bytes, in order. -/
theorem c2_wrap_amended :
    (Write (New 4) [1,2,3]).n = 3 ∧ (Write (New 4) [1,2,3]).err = none ∧
    (Read (Write (New 4) [1,2,3]).state 2).data = [1,2] ∧
    Free (Read (Write (New 4) [1,2,3]).state 2).state = 3 ∧
    (Write (Read (Write (New 4) [1,2,3]).state 2).state [4,5,6]).n = 3 ∧
    (Write (Read (Write (New 4) [1,2,3]).state 2).state [4,5,6]).err = none ∧
    Bytes (Write (Read (Write (New 4) [1,2,3]).state 2).state [4,5,6]).state = [3,4,5,6] := by
  decide

/-- Claim C3: on every valid non-full buffer, a write larger than the free
space stores exactly the first Free bytes, returns that count, and reports
TooMuchData; a write of at most Free bytes stores all of them with no error. -/
theorem c3_write_truncation (s : RingBuffer) (p : List Byte) (hInv : Inv s)
    (hbf : s.isFull = false) (hp : p.length ≠ 0) :
    (Free s < p.length →
      (Write s p).n = Free s ∧ (Write s p).err = some Err.tooMuchData ∧
      contents (Write s p).state = contents s ++ p.take (Free s)) ∧
    (p.length ≤ Free s →
      (Write s p).n = p.length ∧ (Write s p).err = none ∧
      contents (Write s p).state = contents s ++ p) := by
  obtain ⟨hn, herr, hsize, hrr, hInv3, hcont⟩ := Write_spec s p hInv hbf hp
  constructor
  · intro h
    refine ⟨by rw [hn]; omega, by rw [herr, if_pos h], ?_⟩
    rw [hcont, show min p.length (Free s) = Free s by omega]
  · intro h
    refine ⟨by rw [hn]; omega, by rw [herr, if_neg (by omega)], ?_⟩
    rw [hcont, show min p.length (Free s) = p.length by omega, List.take_length]

theorem c3_write_truncation_witness :
    Inv (New 2) ∧ Free (New 2) < 3 ∧
    ((Write (New 2) [1,2,3]).n = Free (New 2) ∧
      (Write (New 2) [1,2,3]).err = some Err.tooMuchData ∧
      contents (Write (New 2) [1,2,3]).state =
        contents (New 2) ++ [1,2,3].take (Free (New 2))) :=
  ⟨by decide, by decide,
    (c3_write_truncation (New 2) [1,2,3] (by decide) rfl (by decide)).1 (by decide)⟩

/-- Claim C5 concerns the constructor: the Go New performs no validation of
the requested capacity, so a non-positive capacity is accepted rather than
rejected, yielding a degenerate buffer: WriteByte on New 0 passes its guard
and reports success while storing nothing (in Go this is an index out of
range panic), and a one byte Write marks the zero capacity buffer full. -/
theorem c5_new_accepts_nonpositive :
    (New 0).size = 0 ∧ (New 0).buf = [] ∧ IsEmpty (New 0) = true ∧
    (WriteByte (New 0) 7).err = none ∧ (WriteByte (New 0) 7).state.buf = [] ∧
    (Write (New 0) [1]).n = 0 ∧ (Write (New 0) [1]).err = some Err.tooMuchData ∧
    IsFull (Write (New 0) [1]).state = true := by
  decide

/-- Claim C6: reading from a valid non-empty buffer with a non-empty
destination of length n copies exactly min(occupied, n) oldest unread bytes,
advances the read cursor by exactly that count modulo capacity, and returns
that count with no error even when it is below n. -/
theorem c6_read_behavior (s : RingBuffer) (plen : Nat) (hInv : Inv s)
    (hne : Length s ≠ 0) (hp : plen ≠ 0) :
    (Read s plen).n = min (Length s) plen ∧
    (Read s plen).data = (contents s).take (min (Length s) plen) ∧
    (Read s plen).state.r = (s.r + min (Length s) plen) % s.size ∧
    (Read s plen).err = none := by
  obtain ⟨h1, h2, h3, h4, _, _, _⟩ := Read_spec s plen hInv hne hp
  exact ⟨h1, h3, h4, h2⟩

theorem c6_read_behavior_witness :
    Inv ⟨[1,2], 2, 1, 1, true⟩ ∧ (Read ⟨[1,2], 2, 1, 1, true⟩ 5).data = [2,1] ∧
    (Read ⟨[1,2], 2, 1, 1, true⟩ 5).n = 2 := by
  refine ⟨by decide, ?_, ?_⟩
  · rw [(c6_read_behavior ⟨[1,2], 2, 1, 1, true⟩ 5 (by decide) (by decide) (by decide)).2.1]
    decide
  · rw [(c6_read_behavior ⟨[1,2], 2, 1, 1, true⟩ 5 (by decide) (by decide) (by decide)).1]
    decide


/-- Claim C4: on every valid state, Read with a non-empty destination and
ReadByte report BufferEmpty exactly when no unread bytes exist, Write with
non-empty input and WriteByte report BufferFull exactly when the free space
is zero, and in each such error case the call leaves the state unchanged. -/
theorem c4_error_conditions (s : RingBuffer) (hInv : Inv s) :
    (∀ plen : Nat, plen ≠ 0 →
      (((Read s plen).err = some Err.isEmpty) ↔ Length s = 0) ∧
      (Length s = 0 → (Read s plen).state = s)) ∧
    ((((ReadByte s).err = some Err.isEmpty) ↔ Length s = 0) ∧
      (Length s = 0 → (ReadByte s).state = s)) ∧
    (∀ p : List Byte, p.length ≠ 0 →
      (((Write s p).err = some Err.isFull) ↔ Free s = 0) ∧
      (Free s = 0 → (Write s p).state = s)) ∧
    (∀ c : Byte,
      (((WriteByte s c).err = some Err.isFull) ↔ Free s = 0) ∧
      (Free s = 0 → (WriteByte s c).state = s)) := by
  obtain ⟨hsz, hlen, hr, hw, hfi⟩ := hInv
  have hInv2 : Inv s := ⟨hsz, hlen, hr, hw, hfi⟩
  have hLiff := Length_eq_zero_iff s hInv2
  have hFiff := Free_eq_zero_iff s hInv2
  refine ⟨?_, ?_, ?_, ?_⟩
  · intro plen hp
    by_cases hg : (s.w = s.r ∧ s.isFull = false)
    · have hL0 : Length s = 0 := hLiff.mpr hg
      unfold Read
      rw [if_neg hp, if_pos hg]
      exact ⟨by simp [hL0], fun _ => rfl⟩
    · have hL0 : Length s ≠ 0 := fun h0 => hg (hLiff.mp h0)
      unfold Read
      rw [if_neg hp, if_neg hg]
      split_ifs with h3
      · exact ⟨by simp [hL0], fun h0 => absurd h0 hL0⟩
      · exact ⟨by simp [hL0], fun h0 => absurd h0 hL0⟩
  · by_cases hg : (s.w = s.r ∧ s.isFull = false)
    · have hL0 : Length s = 0 := hLiff.mpr hg
      unfold ReadByte
      rw [if_pos hg]
      exact ⟨by simp [hL0], fun _ => rfl⟩
    · have hL0 : Length s ≠ 0 := fun h0 => hg (hLiff.mp h0)
      unfold ReadByte
      rw [if_neg hg]
      exact ⟨by simp [hL0], fun h0 => absurd h0 hL0⟩
  · intro p hp
    cases hbf : s.isFull
    · have hF0 : Free s ≠ 0 := fun h0 => by rw [hFiff.mp h0] at hbf; cases hbf
      obtain ⟨hn, herr, hsize, hrr, hInv3, hcont⟩ := Write_spec s p hInv2 hbf hp
      constructor
      · rw [herr]
        constructor
        · intro hcon
          split_ifs at hcon
          all_goals exact absurd (Option.some.inj hcon) (fun h => Err.noConfusion h)
        · intro h0
          exact absurd h0 hF0
      · intro h0
        exact absurd h0 hF0
    · have hF0 : Free s = 0 := hFiff.mpr hbf
      unfold Write
      rw [if_neg hp, if_pos hbf]
      exact ⟨by simp [hF0], fun _ => rfl⟩
  · intro c
    by_cases hg : (s.w = s.r ∧ s.isFull = true)
    · have hF0 : Free s = 0 := hFiff.mpr hg.2
      unfold WriteByte
      rw [if_pos hg]
      exact ⟨by simp [hF0], fun _ => rfl⟩
    · have hF0 : Free s ≠ 0 := by
        intro h0
        have hb := hFiff.mp h0
        exact hg ⟨(hfi hb).symm, hb⟩
      unfold WriteByte
      rw [if_neg hg]
      exact ⟨by simp [hF0], fun h0 => absurd h0 hF0⟩

theorem c4_error_conditions_witness :
    Inv (New 2) ∧ Length (New 2) = 0 ∧
    (((Read (New 2) 1).err = some Err.isEmpty) ↔ Length (New 2) = 0) ∧
    ((Read (New 2) 1).state = New 2) := by
  have h := (c4_error_conditions (New 2) (by decide)).1 1 (by decide)
  exact ⟨by decide, by decide, h.1, h.2 (by decide)⟩

/-- Claim C8: after a Write or WriteByte that accepted at least one byte the
full flag is set exactly when the write cursor advanced onto the read cursor,
and then the buffer holds exactly Capacity bytes; after a Read or ReadByte
that consumed at least one byte the full flag is clear. -/
theorem c8_full_flag (s : RingBuffer) (hs : Reachable s) :
    (∀ p : List Byte, (Write s p).n ≠ 0 →
      ((((Write s p).state.isFull = true) ↔
        (Write s p).state.w = (Write s p).state.r) ∧
      ((Write s p).state.isFull = true → Length (Write s p).state = Capacity s))) ∧
    (∀ c : Byte, (WriteByte s c).err = none →
      ((((WriteByte s c).state.isFull = true) ↔
        (WriteByte s c).state.w = (WriteByte s c).state.r) ∧
      ((WriteByte s c).state.isFull = true → Length (WriteByte s c).state = Capacity s))) ∧
    (∀ plen : Nat, (Read s plen).n ≠ 0 → (Read s plen).state.isFull = false) ∧
    ((ReadByte s).err = none → (ReadByte s).state.isFull = false) := by
  have hInvs := Reachable_Inv s hs
  obtain ⟨hsz, hlen, hr, hw, hfi⟩ := hInvs
  have hInv2 : Inv s := ⟨hsz, hlen, hr, hw, hfi⟩
  refine ⟨?_, ?_, ?_, ?_⟩
  · intro p hn0
    have hp : p.length ≠ 0 := by
      intro h0
      apply hn0
      unfold Write
      rw [if_pos h0]
    have hbf : s.isFull = false := by
      cases hb : s.isFull
      · rfl
      · exfalso
        apply hn0
        unfold Write
        rw [if_neg hp, if_pos hb]
    obtain ⟨hn, herr, hsize, hrr, hInv3, hcont⟩ := Write_spec s p hInv2 hbf hp
    obtain ⟨hsz3, hlen3, hr3, hw3, hfi3⟩ := hInv3
    have hkpos : 0 < min p.length (Free s) := by
      rcases Nat.eq_zero_or_pos (min p.length (Free s)) with h0 | h0
      · rw [hn, h0] at hn0
        exact absurd rfl hn0
      · exact h0
    have hLpos : Length (Write s p).state ≠ 0 := by
      rw [← contents_length, hcont, List.length_append]
      have := List.length_take (min p.length (Free s)) p
      omega
    constructor
    · constructor
      · intro hfull
        exact (hfi3 hfull).symm
      · intro hweq
        cases hb3 : (Write s p).state.isFull
        · exact absurd ((Length_eq_zero_iff _ ⟨hsz3, hlen3, hr3, hw3, hfi3⟩).mpr
            ⟨hweq, hb3⟩) hLpos
        · rfl
    · intro hfull
      unfold Length
      rw [if_pos ((hfi3 hfull).symm), if_pos hfull]
      unfold Capacity
      exact hsize
  · intro c herr
    have hg : ¬ (s.w = s.r ∧ s.isFull = true) := by
      intro hgg
      unfold WriteByte at herr
      rw [if_pos hgg] at herr
      exact Option.noConfusion herr
    have hbf : s.isFull = false := by
      cases hb : s.isFull
      · rfl
      · exact absurd ⟨(hfi hb).symm, hb⟩ hg
    have hInv3 : Inv (WriteByte s c).state := Inv_WriteByte s hInv2 c
    obtain ⟨hsz3, hlen3, hr3, hw3, hfi3⟩ := hInv3
    have hsize3 : (WriteByte s c).state.size = s.size := by
      unfold WriteByte
      rw [if_neg hg]
    have hstate : (WriteByte s c).state.isFull =
        (if (WriteByte s c).state.w = s.r then true else s.isFull) ∧
        (WriteByte s c).state.r = s.r := by
      unfold WriteByte
      rw [if_neg hg]
      dsimp only
      split_ifs <;> exact ⟨rfl, rfl⟩
    constructor
    · rw [hstate.1, hstate.2]
      split_ifs with hcw
      · simp [hcw]
      · rw [hbf]
        simp [hcw]
    · intro hfull
      unfold Length
      rw [if_pos ((hfi3 hfull).symm), if_pos hfull]
      unfold Capacity
      exact hsize3
  · intro plen hn0
    unfold Read at hn0 ⊢
    split_ifs at hn0 ⊢ with h1 h2 h3
    all_goals first
      | exact absurd rfl hn0
      | rfl
      | (cases hb : s.isFull <;> first | rfl | exact absurd (hfi hb) (by omega))
  · intro herr
    unfold ReadByte at herr ⊢
    split_ifs at herr ⊢ with h1
    all_goals first
      | exact Option.noConfusion herr
      | rfl

theorem c8_full_flag_witness :
    (Write (New 2) [5,6]).n ≠ 0 ∧
    (((Write (New 2) [5,6]).state.isFull = true) ↔
      (Write (New 2) [5,6]).state.w = (Write (New 2) [5,6]).state.r) ∧
    ((Write (New 2) [5,6]).state.isFull = true → Length (Write (New 2) [5,6]).state =
      Capacity (New 2)) :=
  ⟨by decide, (c8_full_flag (New 2) (Reachable.base 2 (by decide))).1 [5,6] (by decide)⟩

end Ringbuffer